import Mathlib

/-!
Shallow embedding of the portfolio construction and optimization engine of
this repository (`portfolio_performance.py`, `app.py`, `data_handling.py`),
with theorems settling the frozen claims about it.

Modelling conventions, used consistently below:
* Python floats are modelled as exact rationals (or reals where `np.log`,
  `np.sqrt` or z-scores force irrational values); a float NaN or infinity
  that the code goes on to discard is modelled as `Option.none`.
* Tickers (the labels of `prices.index`) are modelled as naturals, ordered
  the way Python orders the label strings.
* External library calls that can raise (the statsmodels ARIMA fit) or that
  perform opaque numeric search (the scipy SLSQP solver) are parameters of
  the embedding; the repository's own code around them is modelled exactly.
-/

namespace PortfolioSpec

/-- Python `int()` applied to a rational value: truncation toward zero.  Used
for `int(target_value / price)` and `int(remaining_value / price)`. -/
def pyInt (q : ℚ) : ℤ := if q < 0 then ⌈q⌉ else ⌊q⌋

/-- Lookup in an insertion-ordered association list: Python
`allocation.get(t, 0)`. -/
def dictGet (d : List (ℕ × ℤ)) (t : ℕ) : ℤ :=
  match d.find? (fun e => e.1 == t) with
  | some e => e.2
  | none => 0

/-- Key membership in an association list: Python `t in allocation`. -/
def dictMem (d : List (ℕ × ℤ)) (t : ℕ) : Bool := d.any (fun e => e.1 == t)

/-- Assignment `allocation[t] = v`: update the entry in place when the key is
present, append it otherwise, as a Python dict preserves insertion order. -/
def dictSet (d : List (ℕ × ℤ)) (t : ℕ) (v : ℤ) : List (ℕ × ℤ) :=
  if dictMem d t then d.map (fun e => if e.1 = t then (t, v) else e) else d ++ [(t, v)]

/-- The keys of an allocation dict, in insertion order. -/
def dictKeys (d : List (ℕ × ℤ)) : List ℕ := d.map Prod.fst

/-- Total cash an allocation dict spends: the sum of share count times price. -/
def allocSpend (price : ℕ → ℚ) (d : List (ℕ × ℤ)) : ℚ :=
  (d.map (fun e => price e.1 * (e.2 : ℚ))).sum

/-- Insertion step of a stable sort parameterized by a strict "goes before"
Boolean comparison: the inserted element passes every element that strictly
precedes it and stops before the first one that does not. -/
def insertBy (gt : α → α → Bool) (x : α) : List α → List α
  | [] => [x]
  | y :: ys => if gt y x then y :: insertBy gt x ys else x :: y :: ys

/-- Stable insertion sort with a strict comparison: elements that compare
equal keep their input order, as Python `sorted` guarantees. -/
def sortBy (gt : α → α → Bool) : List α → List α
  | [] => []
  | x :: xs => insertBy gt x (sortBy gt xs)

/-- Strict descending comparison of `(weight, ticker)` pairs.
`sorted(zip(weights, prices.index), reverse=True)` compares the zipped tuples
lexicographically, so a tie in weight is broken by comparing the ticker
labels, descending. -/
def pairGtb (x y : ℚ × ℕ) : Bool := decide (y.1 < x.1 ∨ (x.1 = y.1 ∧ y.2 < x.2))

/-- Comparison by weight alone, descending; a stable sort with this
comparison breaks weight ties by input order, which is how the spec describes
the sort. -/
def weightGtb (x y : ℚ × ℕ) : Bool := decide (y.1 < x.1)

/-- First pass of `allocate_portfolio_integer_shares`: for each asset in
sorted order, buy `int(invest_value * weight / price)` shares when that count
is positive and fits in the remaining cash. -/
def allocPass1 (invest : ℚ) (price : ℕ → ℚ) :
    List (ℚ × ℕ) → List (ℕ × ℤ) → ℚ → List (ℕ × ℤ) × ℚ
  | [], alloc, rem => (alloc, rem)
  | (w, t) :: rest, alloc, rem =>
    let p := price t
    let shares := pyInt (invest * w / p)
    if 0 < shares ∧ p * (shares : ℚ) ≤ rem then
      allocPass1 invest price rest (dictSet alloc t shares) (rem - p * (shares : ℚ))
    else
      allocPass1 invest price rest alloc rem

/-- Second pass of `allocate_portfolio_integer_shares`: one more scan in the
same order, adding `int(remaining_value / price)` further shares to each
asset whose price still fits in the remaining cash. -/
def allocPass2 (price : ℕ → ℚ) :
    List (ℚ × ℕ) → List (ℕ × ℤ) → ℚ → List (ℕ × ℤ) × ℚ
  | [], alloc, rem => (alloc, rem)
  | (_, t) :: rest, alloc, rem =>
    let p := price t
    if p ≤ rem then
      let additional := pyInt (rem / p)
      if 0 < additional then
        allocPass2 price rest (dictSet alloc t (dictGet alloc t + additional))
          (rem - p * (additional : ℚ))
      else
        allocPass2 price rest alloc rem
    else
      allocPass2 price rest alloc rem

/-- The integer-share allocator `allocate_portfolio_integer_shares` of
`portfolio_performance.py`: sort the zipped `(weight, ticker)` pairs
descending, run the target-cash first pass starting from the full budget,
then the leftover-cash second pass; return the allocation dict and the
remaining cash. -/
def allocate_portfolio_integer_shares (invest_value : ℚ) (index : List ℕ)
    (prices : ℕ → ℚ) (weights : List ℚ) : List (ℕ × ℤ) × ℚ :=
  let sorted_assets := sortBy pairGtb (weights.zip index)
  let s1 := allocPass1 invest_value prices sorted_assets [] invest_value
  allocPass2 prices sorted_assets s1.1 s1.2

/-- The allocator as the spec words its sort: a stable sort by weight alone,
descending, ties broken by the input order of the assets; both passes
unchanged.  Written to be compared with the allocator above. -/
def claimed_stable_order_allocator (invest_value : ℚ) (index : List ℕ)
    (prices : ℕ → ℚ) (weights : List ℚ) : List (ℕ × ℤ) × ℚ :=
  let sorted_assets := sortBy weightGtb (weights.zip index)
  let s1 := allocPass1 invest_value prices sorted_assets [] invest_value
  allocPass2 prices sorted_assets s1.1 s1.2

/-- The first asset of the list whose price fits in the remaining cash. -/
def firstAffordable (price : ℕ → ℚ) (rem : ℚ) : List (ℚ × ℕ) → Option ℕ
  | [] => none
  | (_, t) :: rest => if price t ≤ rem then some t else firstAffordable price rem rest

/-- The second pass as the spec words it: repeatedly rescan the sorted assets
and add exactly one share to the first asset whose price fits, until no
asset's price fits.  The loop is fuel-indexed; on enough fuel it terminates
by running out of affordable assets. -/
def oneSharePass (price : ℕ → ℚ) (l : List (ℚ × ℕ)) :
    ℕ → List (ℕ × ℤ) → ℚ → List (ℕ × ℤ) × ℚ
  | 0, alloc, rem => (alloc, rem)
  | fuel + 1, alloc, rem =>
    match firstAffordable price rem l with
    | none => (alloc, rem)
    | some t =>
      oneSharePass price l fuel (dictSet alloc t (dictGet alloc t + 1)) (rem - price t)

/-- Model of `adjust_weights_for_anomalies`: scale each weight by one minus
the asset's anomaly score, then renormalize by the sum of the scaled
weights. -/
def adjust_weights_for_anomalies (weights anomaly_scores : List ℚ) : List ℚ :=
  let adjusted_weights := (weights.zip anomaly_scores).map (fun p => p.1 * (1 - p.2))
  adjusted_weights.map (fun x => x / adjusted_weights.sum)

/-- Row of the candidate table with the fields `calculate_adjusted_score` and
`calculate_score` read: fundamental ratios, growth metrics, and the two
anomaly fractions. -/
structure AssetRow where
  roe : ℝ
  pl : ℝ
  pvp : ℝ
  volume : ℝ
  revenue_growth : ℝ
  income_growth : ℝ
  debt_stability : ℝ
  dividend_yield : ℝ
  roic : ℝ
  price_anomaly : ℝ
  rsi_anomaly : ℝ

/-- The 7-factor weighted composite appearing verbatim in both
`calculate_score` and `calculate_adjusted_score`:
ROE over P/L, inverse P/VP, log volume, the three growth metrics, and the
dividend yield, each scaled by its calibrated weight. -/
noncomputable def base_score (w : Fin 7 → ℝ) (row : AssetRow) : ℝ :=
  w 0 * row.roe / row.pl + w 1 / row.pvp + w 2 * Real.log row.volume +
    w 3 * row.revenue_growth + w 4 * row.income_growth +
    w 5 * row.debt_stability + w 6 * row.dividend_yield

/-- Model of `calculate_adjusted_score`: the composite score times the
quality multiplier, times one minus `0.05` of the summed anomaly fractions.
The source has no clamp on either factor. -/
noncomputable def calculate_adjusted_score (row : AssetRow)
    (optimized_weights : Fin 7 → ℝ) : ℝ :=
  let bscore := base_score optimized_weights row
  let quality_factor := (row.roe + row.roic) / 2
  let adjusted_base_score := bscore * (1 + quality_factor * 0.1)
  let anomaly_penalty := row.price_anomaly + row.rsi_anomaly
  adjusted_base_score * (1 - 0.05 * anomaly_penalty)

/-- A concrete candidate row whose anomaly fractions sum to 41: unit
fundamentals, unit volume (so the log term vanishes), zero growth. -/
def c4Row : AssetRow :=
  { roe := 1, pl := 1, pvp := 1, volume := 1, revenue_growth := 0,
    income_growth := 0, debt_stability := 0, dividend_yield := 0, roic := 1,
    price_anomaly := 20, rsi_anomaly := 21 }

/-- The equal 7-factor weight vector, `np.array([1/7] * 7)`. -/
noncomputable def equal_weights7 : Fin 7 → ℝ := fun _ => 1 / 7

/-- Column mean of a T-by-n returns panel: `returns.mean()` at column `j`. -/
noncomputable def colMean (T n : ℕ) (R : Fin T → Fin n → ℝ) (j : Fin n) : ℝ :=
  (∑ t, R t j) / T

/-- Sample covariance (`returns.cov()`, one delta degree of freedom) of
columns `j` and `k`. -/
noncomputable def sampleCov (T n : ℕ) (R : Fin T → Fin n → ℝ) (j k : Fin n) : ℝ :=
  (∑ t, (R t j - colMean T n R j) * (R t k - colMean T n R k)) / ((T : ℝ) - 1)

/-- Model of `portfolio_performance`: the annualized return
`np.sum(returns.mean() * weights) * 252` and the annualized volatility
`np.sqrt(weights . ((returns.cov() * 252) . weights))`.  With fewer than 2
return rows the sample covariance divides by zero and pandas yields NaN,
which `np.sqrt` propagates; that NaN volatility is modelled as `none`. -/
noncomputable def portfolio_performance (T n : ℕ) (weights : Fin n → ℝ)
    (R : Fin T → Fin n → ℝ) : ℝ × Option ℝ :=
  ((∑ j, colMean T n R j * weights j) * 252,
   if T < 2 then none
   else some (Real.sqrt (∑ j, weights j *
      (∑ k, (sampleCov T n R j k * 252) * weights k))))

/-- Arithmetic mean of a list, `np.mean`. -/
noncomputable def listMean (x : List ℝ) : ℝ := x.sum / x.length

/-- Sample variance with one delta degree of freedom, the diagonal of
`np.cov` inside `np.corrcoef`. -/
noncomputable def sampleVarList (x : List ℝ) : ℝ :=
  ((x.map (fun v => (v - listMean x) ^ 2)).sum) / ((x.length : ℝ) - 1)

/-- Model of `np.corrcoef(x, y)[0, 1]`.  With fewer than 2 samples the
covariance divides by zero, and with a zero-variance input the quotient is
0/0; both NaN outcomes are modelled as `none`. -/
noncomputable def corrcoef (x y : List ℝ) : Option ℝ :=
  if x.length < 2 ∨ sampleVarList x = 0 ∨ sampleVarList y = 0 then none
  else some ((((x.map (fun v => v - listMean x)).zip
      (y.map (fun v => v - listMean y))).map (fun p => p.1 * p.2)).sum /
    (((x.length : ℝ) - 1) *
      (Real.sqrt (sampleVarList x) * Real.sqrt (sampleVarList y))))

/-- Model of `calculate_score`: the weighted 7-factor composite, one value
per row of the candidate table. -/
noncomputable def calculate_score (rows : List AssetRow) (w : Fin 7 → ℝ) : List ℝ :=
  rows.map (base_score w)

/-- The candidate table `optimize_weights` receives: the scored rows plus the
trailing five-year cumulative return column. -/
structure CandidateTable where
  rows : List AssetRow
  cumulative_returns : List ℝ

/-- The objective built inside `optimize_weights`: the negated Pearson
correlation between the composite scores and the cumulative returns; `none`
models the NaN of a degenerate correlation. -/
noncomputable def calibrationObjective (df : CandidateTable) (w : Fin 7 → ℝ) :
    Option ℝ :=
  (corrcoef (calculate_score df.rows w) df.cumulative_returns).map (fun c => -c)

/-- The initial guess `np.array([1/7] * 7)` of `optimize_weights`. -/
noncomputable def initial_weights : Fin 7 → ℝ := fun _ => 1 / 7

/-- Model of `optimize_weights`: build the negated-correlation objective, run
the external SLSQP solver (scipy, modelled as a parameter) from the equal
initial weights, and return `result.x` unconditionally.  The source has no
degenerate-case check and no error path. -/
noncomputable def optimize_weights
    (solver : ((Fin 7 → ℝ) → Option ℝ) → (Fin 7 → ℝ) → (Fin 7 → ℝ))
    (df : CandidateTable) : Fin 7 → ℝ :=
  solver (calibrationObjective df) initial_weights

/-- A single candidate row with benign values, for degenerate-table
scenarios. -/
def c7Row : AssetRow :=
  { roe := 1, pl := 1, pvp := 1, volume := 1, revenue_growth := 0,
    income_growth := 0, debt_stability := 0, dividend_yield := 0, roic := 1,
    price_anomaly := 0, rsi_anomaly := 0 }

/-- A concrete stand-in for the external solver: it returns the initial
guess, which is what SLSQP reports when the objective never evaluates to a
finite improvement. -/
def c7Solver : ((Fin 7 → ℝ) → Option ℝ) → (Fin 7 → ℝ) → (Fin 7 → ℝ) :=
  fun _ init => init

/-- A one-asset candidate table: the Pearson correlation over a single sample
is undefined. -/
def c7Df : CandidateTable := { rows := [c7Row], cumulative_returns := [1] }

/-- Forward-fill of a price column, carrying the last seen value; this is the
`fill_method="pad"` step pandas `pct_change` applies by default before
differencing. -/
def ffillAux (last : Option ℚ) : List (Option ℚ) → List (Option ℚ)
  | [] => []
  | none :: cs => last :: ffillAux last cs
  | some v :: cs => some v :: ffillAux (some v) cs

/-- Forward-fill of a whole column, nothing seen yet. -/
def ffill (col : List (Option ℚ)) : List (Option ℚ) := ffillAux none col

/-- One cell of the relative change: NaN (`none`) when either price is
missing; division by a zero previous price yields an infinity or NaN, which
every caller below discards, so it is also modelled as `none`. -/
def pctCell (prev cur : Option ℚ) : Option ℚ :=
  match prev, cur with
  | some p, some c => if p = 0 then none else some (c / p - 1)
  | _, _ => none

/-- Pandas `col.pct_change()`: pad the column, then take the relative change
of consecutive padded entries; the first row is always NaN. -/
def pctChangeCol (col : List (Option ℚ)) : List (Option ℚ) :=
  (List.range col.length).map (fun t =>
    if t = 0 then none
    else pctCell ((ffill col).getD (t - 1) none) ((ffill col).getD t none))

/-- The relative change of the raw column, exactly as the spec words it: the
consecutive relative change is undefined whenever a neighbouring price is
missing or the previous price is zero.  Written to be compared with
`pctChangeCol`. -/
def rawPctCol (col : List (Option ℚ)) : List (Option ℚ) :=
  (List.range col.length).map (fun t =>
    if t = 0 then none
    else pctCell (col.getD (t - 1) none) (col.getD t none))

/-- Row `t` across all per-asset return columns. -/
def rowAt (rets : List (List (Option ℚ))) (t : ℕ) : List (Option ℚ) :=
  rets.map (fun c => c.getD t none)

/-- The combined `dropna` passes of `calculate_returns`: keep exactly the
date rows in which every asset's return is defined. -/
def dropIncompleteRows (rets : List (List (Option ℚ))) (T : ℕ) : List (List ℚ) :=
  (List.range T).filterMap (fun t =>
    let row := rowAt rets t
    if row.all Option.isSome then some (row.map (fun c => c.getD 0)) else none)

/-- Model of `calculate_returns` on a price panel given as a list of
per-asset columns: an empty panel yields an empty panel; otherwise
`pct_change` per column, then the `dropna` passes, which jointly delete every
date row containing a NaN or an infinity. -/
def calculate_returns (prices : List (List (Option ℚ))) : List (List ℚ) :=
  if prices.isEmpty ∨ (prices.getD 0 []).length = 0 then []
  else dropIncompleteRows (prices.map pctChangeCol) (prices.getD 0 []).length

/-- The returns computation as the claim words it: consecutive relative
changes of the raw prices with undefined rows dropped, and no
forward-filling.  Written to be compared with `calculate_returns`. -/
def claimed_calculate_returns (prices : List (List (Option ℚ))) : List (List ℚ) :=
  if prices.isEmpty ∨ (prices.getD 0 []).length = 0 then []
  else dropIncompleteRows (prices.map rawPctCol) (prices.getD 0 []).length

/-- Drop the undefined entries of a series, pandas `dropna` on a Series. -/
def dropNoneQ (l : List (Option ℚ)) : List ℚ := l.filterMap id

/-- The `prices.pct_change().dropna()` step at the top of
`detect_price_anomalies`, for a single price series. -/
def seriesReturns (prices : List (Option ℚ)) : List ℚ := dropNoneQ (pctChangeCol prices)

/-- The trailing window of length `w` ending at index `i`; `none` while fewer
than `w` observations are available (pandas rolling statistics with the
default minimum period equal to the window). -/
def rollingWindowVals (w : ℕ) (xs : List ℚ) (i : ℕ) : Option (List ℚ) :=
  if w ≤ i + 1 then some ((xs.take (i + 1)).drop (i + 1 - w)) else none

/-- Mean of a full rolling window. -/
def winMean (w : ℕ) (win : List ℚ) : ℚ := win.sum / w

/-- Rolling sample variance (one delta degree of freedom) of a full window. -/
def winVar (w : ℕ) (win : List ℚ) : ℚ :=
  (win.map (fun x => (x - winMean w win) ^ 2)).sum / ((w : ℚ) - 1)

/-- One entry of `abs(z_scores) > threshold`: false while the rolling window
is not full (the statistics are NaN), and false when the rolling variance is
zero (the residual then equals the window mean, so the z-score is 0/0, NaN);
for a positive rolling variance the comparison of `|residual - mean| / std`
against the threshold is stated on squares to stay inside the rationals,
which is an exact rewriting since the standard deviation is positive. -/
def flagAt (window : ℕ) (threshold : ℚ) (residuals : List ℚ) (i : ℕ) : Bool :=
  match rollingWindowVals window residuals i with
  | none => false
  | some win =>
    if winVar window win = 0 then false
    else
      decide ((residuals.getD i 0 - winMean window win) ^ 2 >
        threshold ^ 2 * winVar window win)

/-- Model of `detect_price_anomalies`.  The order-(1,1,1) residual model fit
is an external library call (statsmodels ARIMA) that raises on input it
cannot fit; it is modelled as the `fit` parameter returning `Except`.  The
source wraps the call in no try/except, so a raised error propagates to the
caller. -/
def detect_price_anomalies (fit : List ℚ → Except String (List ℚ))
    (prices : List (Option ℚ)) (window : ℕ) (threshold : ℚ) :
    Except String (List Bool) :=
  match fit (seriesReturns prices) with
  | .error e => .error e
  | .ok residuals =>
    .ok ((List.range residuals.length).map (flagAt window threshold residuals))

/-- The flag condition as the claim words it: the rolling-window standardized
residual exceeds the threshold in absolute value, with a real-valued
z-score.  Written to be compared with `flagAt`. -/
noncomputable def claimedZFlag (window : ℕ) (threshold : ℚ) (residuals : List ℚ)
    (i : ℕ) : Prop :=
  ∃ win, rollingWindowVals window residuals i = some win ∧
    winVar window win ≠ 0 ∧
    |((residuals.getD i 0 : ℚ) : ℝ) - ((winMean window win : ℚ) : ℝ)| /
      Real.sqrt ((winVar window win : ℚ) : ℝ) > ((threshold : ℚ) : ℝ)

/-- A stand-in for the ARIMA fit boundary that raises on a series too short
to fit, as statsmodels does for an order-(1,1,1) model. -/
def c6Fit : List ℚ → Except String (List ℚ) :=
  fun rs => if rs.length < 3 then .error "insufficient observations" else .ok rs

/-- A fit boundary that always succeeds and reports the returns themselves as
residuals, for exercising the flagging arm. -/
def c6FitOk : List ℚ → Except String (List ℚ) := fun rs => .ok rs

end PortfolioSpec

namespace PortfolioSpec

theorem dictMem_iff (d : List (ℕ × ℤ)) (t : ℕ) :
    dictMem d t = true ↔ t ∈ dictKeys d := by
  simp only [dictMem, List.any_eq_true, beq_iff_eq, dictKeys, List.mem_map]

theorem map_setEntry_of_not_mem (d : List (ℕ × ℤ)) (t : ℕ) (v : ℤ)
    (h : t ∉ dictKeys d) :
    d.map (fun e => if e.1 = t then (t, v) else e) = d := by
  induction d with
  | nil => rfl
  | cons e d ih =>
    simp only [dictKeys, List.map_cons, List.mem_cons] at h ⊢
    have h1 : e.1 ≠ t := fun hc => h (Or.inl hc.symm)
    rw [if_neg h1, ih (fun hc => h (Or.inr hc))]

theorem dictSet_cons_ne (e : ℕ × ℤ) (d : List (ℕ × ℤ)) (t : ℕ) (v : ℤ)
    (h : e.1 ≠ t) : dictSet (e :: d) t v = e :: dictSet d t v := by
  have hm : dictMem (e :: d) t = dictMem d t := by
    simp [dictMem, List.any_cons, h]
  cases hd : dictMem d t with
  | true => simp only [dictSet, hm, hd, if_true, List.map_cons, if_neg h]
  | false => simp only [dictSet, hm, hd, Bool.false_eq_true, if_false, List.cons_append]

theorem dictSet_cons_eq (e : ℕ × ℤ) (d : List (ℕ × ℤ)) (v : ℤ)
    (h : e.1 ∉ dictKeys d) : dictSet (e :: d) e.1 v = (e.1, v) :: d := by
  have hm : dictMem (e :: d) e.1 = true := by simp [dictMem]
  simp only [dictSet, hm, if_true, List.map_cons, if_pos rfl,
    map_setEntry_of_not_mem d e.1 v h]

theorem dictGet_cons_ne (e : ℕ × ℤ) (d : List (ℕ × ℤ)) (t : ℕ) (h : e.1 ≠ t) :
    dictGet (e :: d) t = dictGet d t := by
  simp [dictGet, List.find?_cons, h]

theorem dictGet_cons_eq (e : ℕ × ℤ) (d : List (ℕ × ℤ)) :
    dictGet (e :: d) e.1 = e.2 := by
  simp [dictGet, List.find?_cons]

theorem allocSpend_cons (price : ℕ → ℚ) (e : ℕ × ℤ) (d : List (ℕ × ℤ)) :
    allocSpend price (e :: d) = price e.1 * (e.2 : ℚ) + allocSpend price d := by
  simp [allocSpend]

theorem allocSpend_dictSet (price : ℕ → ℚ) (d : List (ℕ × ℤ)) (t : ℕ) (v : ℤ)
    (h : (dictKeys d).Nodup) :
    allocSpend price (dictSet d t v) =
      allocSpend price d + price t * ((v : ℚ) - (dictGet d t : ℚ)) := by
  induction d with
  | nil =>
    simp [dictSet, dictMem, allocSpend, dictGet]
  | cons e d ih =>
    simp only [dictKeys, List.map_cons, List.nodup_cons] at h
    by_cases he : e.1 = t
    · subst he
      have hk : e.1 ∉ dictKeys d := by
        intro hc
        exact h.1 (by simpa [dictKeys] using hc)
      rw [dictSet_cons_eq e d v hk, dictGet_cons_eq, allocSpend_cons,
        allocSpend_cons]
      ring
    · rw [dictSet_cons_ne e d t v he, dictGet_cons_ne e d t he, allocSpend_cons,
        allocSpend_cons, ih h.2]
      ring

theorem dictKeys_dictSet (d : List (ℕ × ℤ)) (t : ℕ) (v : ℤ) :
    dictKeys (dictSet d t v) =
      if dictMem d t then dictKeys d else dictKeys d ++ [t] := by
  cases hm : dictMem d t with
  | true =>
    simp only [dictSet, hm, if_true, dictKeys, List.map_map]
    congr 1
    funext e
    by_cases he : e.1 = t <;> simp [he]
  | false => simp [dictSet, hm, dictKeys]

theorem dictKeys_dictSet_nodup (d : List (ℕ × ℤ)) (t : ℕ) (v : ℤ)
    (h : (dictKeys d).Nodup) : (dictKeys (dictSet d t v)).Nodup := by
  rw [dictKeys_dictSet]
  cases hm : dictMem d t with
  | true => simpa
  | false =>
    have : t ∉ dictKeys d := fun hc => by
      rw [(dictMem_iff d t).2 hc] at hm
      exact Bool.true_eq_false.mp hm
    simp [List.nodup_append, this, h]

theorem mem_dictSet (d : List (ℕ × ℤ)) (t : ℕ) (v : ℤ) (e : ℕ × ℤ)
    (he : e ∈ dictSet d t v) : e ∈ d ∨ e = (t, v) := by
  cases hm : dictMem d t with
  | true =>
    simp only [dictSet, hm, if_true, List.mem_map] at he
    obtain ⟨x, hx, hxe⟩ := he
    by_cases hxt : x.1 = t
    · right; rw [if_pos hxt] at hxe; exact hxe.symm
    · left; rw [if_neg hxt] at hxe; exact hxe ▸ hx
  | false =>
    simp only [dictSet, hm, Bool.false_eq_true, if_false, List.mem_append,
      List.mem_singleton] at he
    exact he

theorem dictGet_dictSet_self (d : List (ℕ × ℤ)) (t : ℕ) (v : ℤ) :
    dictGet (dictSet d t v) t = v := by
  induction d with
  | nil => simp [dictSet, dictMem, dictGet]
  | cons e d ih =>
    by_cases he : e.1 = t
    · subst he
      cases hm : dictMem (e :: d) e.1 with
      | true =>
        simp only [dictSet, hm, if_true, List.map_cons, if_pos rfl]
        exact dictGet_cons_eq (e.1, v) _
      | false =>
        exfalso
        have : dictMem (e :: d) e.1 = true := by simp [dictMem]
        rw [this] at hm
        exact Bool.true_eq_false.mp hm
    · rw [dictSet_cons_ne e d t v he, dictGet_cons_ne e (dictSet d t v) t he]
      exact ih

theorem dictSet_dictSet_self (d : List (ℕ × ℤ)) (t : ℕ) (v w : ℤ) :
    dictSet (dictSet d t v) t w = dictSet d t w := by
  induction d with
  | nil => simp [dictSet, dictMem]
  | cons e d ih =>
    by_cases he : e.1 = t
    · subst he
      by_cases hd : e.1 ∈ dictKeys d
      · have hm : dictMem (e :: d) e.1 = true := by simp [dictMem]
        have hsub : ∀ u : ℤ, dictSet (e :: d) e.1 u =
            (e.1, u) :: d.map (fun x => if x.1 = e.1 then (e.1, u) else x) := by
          intro u
          simp [dictSet, hm, if_pos rfl]
        have hm2 : dictMem
            ((e.1, v) :: d.map (fun x => if x.1 = e.1 then (e.1, v) else x))
            e.1 = true := by simp [dictMem]
        rw [hsub v, hsub w]
        simp only [dictSet, hm2, if_true, List.map_cons, if_pos rfl, List.map_map]
        congr 1
        apply List.map_congr_left
        intro x _
        by_cases hx : x.1 = e.1 <;> simp [hx, Function.comp]
      · rw [dictSet_cons_eq e d v hd, dictSet_cons_eq ((e.1, v)) d w hd,
          dictSet_cons_eq e d w hd]
    · rw [dictSet_cons_ne e d t v he, dictSet_cons_ne e (dictSet d t v) t w he,
        dictSet_cons_ne e d t w he, ih]

theorem dictGet_eq_zero_of_not_mem (d : List (ℕ × ℤ)) (t : ℕ)
    (h : t ∉ dictKeys d) : dictGet d t = 0 := by
  have : d.find? (fun e => e.1 == t) = none := by
    rw [List.find?_eq_none]
    intro e he
    simp only [beq_iff_eq]
    intro hc
    apply h
    exact hc ▸ List.mem_map_of_mem Prod.fst he
  simp [dictGet, this]

theorem dictGet_mem_or_zero (d : List (ℕ × ℤ)) (t : ℕ) :
    dictGet d t = 0 ∨ ∃ e ∈ d, dictGet d t = e.2 := by
  unfold dictGet
  cases hf : d.find? (fun e => e.1 == t) with
  | none => left; rfl
  | some e => right; exact ⟨e, List.mem_of_find?_eq_some hf, rfl⟩

end PortfolioSpec

namespace PortfolioSpec

theorem pyInt_div_pos (rem p : ℚ) (hp : 0 < p) (hrem : 0 ≤ rem) (hple : p ≤ rem) :
    pyInt (rem / p) = ⌊rem / p⌋ ∧ 1 ≤ ⌊rem / p⌋ ∧
    p * ((⌊rem / p⌋ : ℤ) : ℚ) ≤ rem ∧ rem - p * ((⌊rem / p⌋ : ℤ) : ℚ) < p := by
  have hdiv_nonneg : 0 ≤ rem / p := div_nonneg hrem hp.le
  have h1 : pyInt (rem / p) = ⌊rem / p⌋ := by
    unfold pyInt
    rw [if_neg (not_lt.mpr hdiv_nonneg)]
  have h2 : 1 ≤ ⌊rem / p⌋ := by
    rw [Int.le_floor]
    exact_mod_cast (one_le_div hp).mpr hple
  have h3 : p * ((⌊rem / p⌋ : ℤ) : ℚ) ≤ rem := by
    have := Int.floor_le (rem / p)
    calc p * ((⌊rem / p⌋ : ℤ) : ℚ) ≤ p * (rem / p) :=
          mul_le_mul_of_nonneg_left this hp.le
      _ = rem := by field_simp
  have h4 : rem - p * ((⌊rem / p⌋ : ℤ) : ℚ) < p := by
    have := Int.lt_floor_add_one (rem / p)
    have h5 : rem / p < ((⌊rem / p⌋ : ℤ) : ℚ) + 1 := by exact_mod_cast this
    have h6 : rem < (((⌊rem / p⌋ : ℤ) : ℚ) + 1) * p := (div_lt_iff hp).mp h5
    nlinarith
  exact ⟨h1, h2, h3, h4⟩

theorem allocPass1_main (price : ℕ → ℚ) (invest : ℚ) :
    ∀ (l : List (ℚ × ℕ)) (alloc : List (ℕ × ℤ)) (rem : ℚ),
      (dictKeys alloc).Nodup →
      (∀ x ∈ l, x.2 ∉ dictKeys alloc) →
      (l.map Prod.snd).Nodup →
      (dictKeys (allocPass1 invest price l alloc rem).1).Nodup ∧
      allocSpend price (allocPass1 invest price l alloc rem).1 +
          (allocPass1 invest price l alloc rem).2 = allocSpend price alloc + rem ∧
      (0 ≤ rem → 0 ≤ (allocPass1 invest price l alloc rem).2) ∧
      (∀ e ∈ (allocPass1 invest price l alloc rem).1, e ∈ alloc ∨ 1 ≤ e.2) := by
  intro l
  induction l with
  | nil =>
    intro alloc rem h _ _
    exact ⟨h, by simp [allocPass1], fun hr => hr, fun e he => Or.inl he⟩
  | cons x rest ih =>
    intro alloc rem h hdisj hlnd
    obtain ⟨w, t⟩ := x
    have htm : t ∉ dictKeys alloc := hdisj (w, t) (List.mem_cons_self _ _)
    have hrest_nd : (rest.map Prod.snd).Nodup := (List.nodup_cons.mp hlnd).2
    have htrest : t ∉ rest.map Prod.snd := (List.nodup_cons.mp hlnd).1
    simp only [allocPass1]
    by_cases hb : 0 < pyInt (invest * w / price t) ∧
        price t * (pyInt (invest * w / price t) : ℚ) ≤ rem
    · rw [if_pos hb]
      set shares := pyInt (invest * w / price t) with hsh
      have hnd2 : (dictKeys (dictSet alloc t shares)).Nodup :=
        dictKeys_dictSet_nodup alloc t shares h
      have hdisj2 : ∀ x ∈ rest, x.2 ∉ dictKeys (dictSet alloc t shares) := by
        intro x hx
        rw [dictKeys_dictSet]
        have hxa : x.2 ∉ dictKeys alloc := hdisj x (List.mem_cons_of_mem _ hx)
        have hxt : x.2 ≠ t := by
          intro hc
          exact htrest (hc ▸ List.mem_map_of_mem Prod.snd hx)
        cases dictMem alloc t <;> simp [hxa, hxt]
      obtain ⟨ih1, ih2, ih3, ih4⟩ := ih (dictSet alloc t shares)
        (rem - price t * (shares : ℚ)) hnd2 hdisj2 hrest_nd
      refine ⟨ih1, ?_, ?_, ?_⟩
      · rw [ih2, allocSpend_dictSet price alloc t shares h,
          dictGet_eq_zero_of_not_mem alloc t htm]
        push_cast
        ring
      · intro _
        exact ih3 (by linarith [hb.2])
      · intro e he
        rcases ih4 e he with hmem | hge
        · rcases mem_dictSet alloc t shares e hmem with hmem2 | heq
          · exact Or.inl hmem2
          · right; rw [heq]; exact hb.1
        · exact Or.inr hge
    · rw [if_neg hb]
      exact ih alloc rem h (fun x hx => hdisj x (List.mem_cons_of_mem _ hx)) hrest_nd

theorem allocPass2_main (price : ℕ → ℚ) :
    ∀ (l : List (ℚ × ℕ)) (alloc : List (ℕ × ℤ)) (rem : ℚ),
      (∀ x ∈ l, 0 < price x.2) →
      (dictKeys alloc).Nodup →
      0 ≤ rem →
      (dictKeys (allocPass2 price l alloc rem).1).Nodup ∧
      allocSpend price (allocPass2 price l alloc rem).1 +
          (allocPass2 price l alloc rem).2 = allocSpend price alloc + rem ∧
      0 ≤ (allocPass2 price l alloc rem).2 ∧
      (allocPass2 price l alloc rem).2 ≤ rem ∧
      ((∀ e ∈ alloc, 1 ≤ e.2) → ∀ e ∈ (allocPass2 price l alloc rem).1, 1 ≤ e.2) ∧
      (∀ x ∈ l, (allocPass2 price l alloc rem).2 < price x.2) := by
  intro l
  induction l with
  | nil =>
    intro alloc rem _ h hrem
    exact ⟨h, by simp [allocPass2], hrem, le_refl rem, fun hv e he => hv e he,
      fun x hx => absurd hx (List.not_mem_nil x)⟩
  | cons x rest ih =>
    intro alloc rem hpos h hrem
    obtain ⟨w, t⟩ := x
    have hp : 0 < price t := hpos (w, t) (List.mem_cons_self _ _)
    have hpos2 : ∀ x ∈ rest, 0 < price x.2 :=
      fun x hx => hpos x (List.mem_cons_of_mem _ hx)
    simp only [allocPass2]
    by_cases hple : price t ≤ rem
    · rw [if_pos hple]
      obtain ⟨ha, ha1, hpa, hlt⟩ := pyInt_div_pos rem (price t) hp hrem hple
      rw [ha, if_pos (by exact_mod_cast ha1 : (0 : ℤ) < ⌊rem / price t⌋)]
      set a := ⌊rem / price t⌋ with hadef
      set alloc2 := dictSet alloc t (dictGet alloc t + a) with halloc2
      set rem2 := rem - price t * (a : ℚ) with hrem2
      have hnd2 : (dictKeys alloc2).Nodup := dictKeys_dictSet_nodup alloc t _ h
      have hrem20 : 0 ≤ rem2 := by rw [hrem2]; linarith
      obtain ⟨ih1, ih2, ih3, ih4, ih5, ih6⟩ := ih alloc2 rem2 hpos2 hnd2 hrem20
      refine ⟨ih1, ?_, ih3, by linarith, ?_, ?_⟩
      · rw [ih2, allocSpend_dictSet price alloc t _ h]
        push_cast
        ring
      · intro hv e he
        apply ih5 _ e he
        intro e2 he2
        rcases mem_dictSet alloc t _ e2 he2 with hm | heq
        · exact hv e2 hm
        · rw [heq]
          rcases dictGet_mem_or_zero alloc t with hz | ⟨e3, he3, hg⟩
          · simp only [hz, zero_add]; exact ha1
          · have : 1 ≤ e3.2 := hv e3 he3
            simp only []
            omega
      · intro x hx
        rcases List.mem_cons.mp hx with heq | hmem
        · rw [heq]
          calc (allocPass2 price rest alloc2 rem2).2 ≤ rem2 := ih4
            _ < price t := hlt
        · exact ih6 x hmem
    · rw [if_neg hple]
      obtain ⟨ih1, ih2, ih3, ih4, ih5, ih6⟩ := ih alloc rem hpos2 h hrem
      refine ⟨ih1, ih2, ih3, ih4, ih5, ?_⟩
      intro x hx
      rcases List.mem_cons.mp hx with heq | hmem
      · rw [heq]
        push_neg at hple
        calc (allocPass2 price rest alloc rem).2 ≤ rem := ih4
          _ < price t := hple
      · exact ih6 x hmem

theorem allocPass1_values (invest : ℚ) (price : ℕ → ℚ) :
    ∀ (l : List (ℚ × ℕ)) (alloc : List (ℕ × ℤ)) (rem : ℚ),
      (∀ e ∈ alloc, 1 ≤ e.2) →
      ∀ e ∈ (allocPass1 invest price l alloc rem).1, 1 ≤ e.2 := by
  intro l
  induction l with
  | nil => intro alloc rem h e he; exact h e he
  | cons x rest ih =>
    intro alloc rem h
    obtain ⟨w, t⟩ := x
    simp only [allocPass1]
    by_cases hb : 0 < pyInt (invest * w / price t) ∧
        price t * (pyInt (invest * w / price t) : ℚ) ≤ rem
    · rw [if_pos hb]
      apply ih
      intro e he
      rcases mem_dictSet alloc t _ e he with hm | heq
      · exact h e hm
      · rw [heq]; exact hb.1
    · rw [if_neg hb]
      exact ih alloc rem h

theorem allocPass2_values (price : ℕ → ℚ) :
    ∀ (l : List (ℚ × ℕ)) (alloc : List (ℕ × ℤ)) (rem : ℚ),
      (∀ e ∈ alloc, 1 ≤ e.2) →
      ∀ e ∈ (allocPass2 price l alloc rem).1, 1 ≤ e.2 := by
  intro l
  induction l with
  | nil => intro alloc rem h e he; exact h e he
  | cons x rest ih =>
    intro alloc rem h
    obtain ⟨w, t⟩ := x
    simp only [allocPass2]
    by_cases hple : price t ≤ rem
    · rw [if_pos hple]
      by_cases hadd : 0 < pyInt (rem / price t)
      · rw [if_pos hadd]
        apply ih
        intro e he
        rcases mem_dictSet alloc t _ e he with hm | heq
        · exact h e hm
        · rw [heq]
          rcases dictGet_mem_or_zero alloc t with hz | ⟨e2, he2, hg⟩
          · simp only [hz, zero_add]; omega
          · have := h e2 he2
            simp only []
            omega
      · rw [if_neg hadd]
        exact ih alloc rem h
    · rw [if_neg hple]
      exact ih alloc rem h

end PortfolioSpec

namespace PortfolioSpec

theorem firstAffordable_none (price : ℕ → ℚ) (rem : ℚ) :
    ∀ l : List (ℚ × ℕ), (∀ x ∈ l, rem < price x.2) →
      firstAffordable price rem l = none := by
  intro l
  induction l with
  | nil => intro _; rfl
  | cons x rest ih =>
    intro h
    obtain ⟨w, t⟩ := x
    have : rem < price t := h (w, t) (List.mem_cons_self _ _)
    simp only [firstAffordable, if_neg (not_le.mpr this)]
    exact ih (fun x hx => h x (List.mem_cons_of_mem _ hx))

theorem firstAffordable_append (price : ℕ → ℚ) (rem : ℚ) (w : ℚ) (t : ℕ)
    (rest : List (ℚ × ℕ)) :
    ∀ done : List (ℚ × ℕ), (∀ x ∈ done, rem < price x.2) → price t ≤ rem →
      firstAffordable price rem (done ++ (w, t) :: rest) = some t := by
  intro done
  induction done with
  | nil =>
    intro _ hple
    simp only [List.nil_append, firstAffordable, if_pos hple]
  | cons y ys ih =>
    intro h hple
    obtain ⟨w2, t2⟩ := y
    have : rem < price t2 := h (w2, t2) (List.mem_cons_self _ _)
    simp only [List.cons_append, firstAffordable, if_neg (not_le.mpr this)]
    exact ih (fun x hx => h x (List.mem_cons_of_mem _ hx)) hple

theorem oneSharePass_stuck (price : ℕ → ℚ) (l : List (ℚ × ℕ)) (rem : ℚ)
    (h : firstAffordable price rem l = none) :
    ∀ (fuel : ℕ) (alloc : List (ℕ × ℤ)),
      oneSharePass price l fuel alloc rem = (alloc, rem) := by
  intro fuel alloc
  cases fuel with
  | zero => rfl
  | succ n => simp only [oneSharePass, h]

theorem oneSharePass_bulk (price : ℕ → ℚ) (done rest : List (ℚ × ℕ)) (w : ℚ)
    (t : ℕ) (hp : 0 < price t) :
    ∀ (a fuel : ℕ) (alloc : List (ℕ × ℤ)) (rem : ℚ),
      (∀ x ∈ done, rem < price x.2) →
      price t * ((a : ℚ) + 1) ≤ rem →
      oneSharePass price (done ++ (w, t) :: rest) (fuel + (a + 1)) alloc rem =
        oneSharePass price (done ++ (w, t) :: rest) fuel
          (dictSet alloc t (dictGet alloc t + ((a : ℤ) + 1)))
          (rem - price t * ((a : ℚ) + 1)) := by
  intro a
  induction a with
  | zero =>
    intro fuel alloc rem hdone hble
    have hple : price t ≤ rem := by
      have h0 : ((0 : ℕ) : ℚ) + 1 = 1 := by norm_num
      rw [h0, mul_one] at hble
      exact hble
    have hfa : firstAffordable price rem (done ++ (w, t) :: rest) = some t :=
      firstAffordable_append price rem w t rest done hdone hple
    show oneSharePass price (done ++ (w, t) :: rest) (fuel + 1) alloc rem = _
    simp only [oneSharePass, hfa]
    norm_num
  | succ a ih =>
    intro fuel alloc rem hdone hble
    have hpa1 : 0 ≤ price t * ((a : ℚ) + 1) := by positivity
    have hple : price t ≤ rem := by
      push_cast at hble
      nlinarith
    have hfa : firstAffordable price rem (done ++ (w, t) :: rest) = some t :=
      firstAffordable_append price rem w t rest done hdone hple
    have hstep : oneSharePass price (done ++ (w, t) :: rest)
        (fuel + (a + 1 + 1)) alloc rem =
        oneSharePass price (done ++ (w, t) :: rest) (fuel + (a + 1))
          (dictSet alloc t (dictGet alloc t + 1)) (rem - price t) := by
      have hsucc : fuel + (a + 1 + 1) = (fuel + (a + 1)) + 1 := by omega
      rw [hsucc]
      simp only [oneSharePass, hfa]
    rw [hstep]
    have hdone2 : ∀ x ∈ done, rem - price t < price x.2 := by
      intro x hx
      have := hdone x hx
      linarith
    have hble2 : price t * ((a : ℚ) + 1) ≤ rem - price t := by
      push_cast at hble
      nlinarith
    rw [ih fuel (dictSet alloc t (dictGet alloc t + 1)) (rem - price t) hdone2 hble2]
    rw [dictGet_dictSet_self, dictSet_dictSet_self]
    congr 1
    · congr 1
      omega
    · push_cast
      ring

theorem oneSharePass_eq_allocPass2 (price : ℕ → ℚ) :
    ∀ (s done : List (ℚ × ℕ)) (alloc : List (ℕ × ℤ)) (rem : ℚ),
      (∀ x ∈ done ++ s, 0 < price x.2) →
      (∀ x ∈ done, rem < price x.2) →
      0 ≤ rem →
      ∃ n : ℕ, ∀ fuel, n ≤ fuel →
        oneSharePass price (done ++ s) fuel alloc rem = allocPass2 price s alloc rem := by
  intro s
  induction s with
  | nil =>
    intro done alloc rem _ hdone hrem
    refine ⟨0, fun fuel _ => ?_⟩
    rw [List.append_nil]
    rw [oneSharePass_stuck price done rem (firstAffordable_none price rem done hdone)]
    rfl
  | cons x rest ih =>
    intro done alloc rem hpos hdone hrem
    obtain ⟨w, t⟩ := x
    have hp : 0 < price t := hpos (w, t) (by simp)
    by_cases hple : price t ≤ rem
    · obtain ⟨ha, ha1, hpa, hlt⟩ := pyInt_div_pos rem (price t) hp hrem hple
      set a := ⌊rem / price t⌋ with hadef
      set A := a.toNat with hAdef
      have hAa : (A : ℤ) = a := Int.toNat_of_nonneg (by omega)
      have hA1 : 1 ≤ A := by omega
      set alloc2 := dictSet alloc t (dictGet alloc t + a) with halloc2
      set rem2 := rem - price t * (a : ℚ) with hrem2
      have hrem20 : 0 ≤ rem2 := by rw [hrem2]; linarith
      have hpos2 : ∀ x ∈ (done ++ [(w, t)]) ++ rest, 0 < price x.2 := by
        intro x hx
        apply hpos
        simpa using (by simpa using hx : x ∈ done ++ (w, t) :: rest)
      have hdone2 : ∀ x ∈ done ++ [(w, t)], rem2 < price x.2 := by
        intro x hx
        rcases List.mem_append.mp hx with hm | hm
        · have hle : rem2 ≤ rem := by rw [hrem2]; nlinarith [hpa]
          linarith [hdone x hm]
        · rcases List.mem_singleton.mp hm with rfl
          simpa using hlt
      obtain ⟨n1, hn1⟩ := ih (done ++ [(w, t)]) alloc2 rem2 hpos2 hdone2 hrem20
      refine ⟨n1 + A, fun fuel hfuel => ?_⟩
      have hsplit : fuel = (fuel - A) + ((A - 1) + 1) := by omega
      have hble : price t * (((A - 1 : ℕ) : ℚ) + 1) ≤ rem := by
        have hc : (((A - 1 : ℕ) : ℚ) + 1) = ((A : ℕ) : ℚ) := by
          push_cast [Nat.cast_sub hA1]
          ring
        rw [hc]
        have hAQ : ((A : ℕ) : ℚ) = ((a : ℤ) : ℚ) :=
          by exact_mod_cast congrArg (Int.cast : ℤ → ℚ) hAa
        rw [hAQ]
        exact hpa
      rw [hsplit, oneSharePass_bulk price done rest w t hp (A - 1) (fuel - A)
        alloc rem hdone hble]
      have hcast1 : (((A - 1 : ℕ) : ℤ) + 1) = a := by omega
      have hcast2 : rem - price t * (((A - 1 : ℕ) : ℚ) + 1) = rem2 := by
        rw [hrem2]
        congr 1
        congr 1
        have hone : (((A - 1 : ℕ) : ℚ) + 1) = ((A : ℕ) : ℚ) := by
          push_cast [Nat.cast_sub hA1]
          ring
        rw [hone]
        exact_mod_cast congrArg (Int.cast : ℤ → ℚ) hAa
      rw [hcast1, hcast2]
      have hlist : done ++ (w, t) :: rest = (done ++ [(w, t)]) ++ rest := by simp
      rw [hlist, hn1 (fuel - A) (by omega)]
      have hcode : allocPass2 price ((w, t) :: rest) alloc rem =
          allocPass2 price rest alloc2 rem2 := by
        simp only [allocPass2, if_pos hple, ha, if_pos (by omega : (0 : ℤ) < a)]
      rw [hcode]
    · have hdone2 : ∀ x ∈ done ++ [(w, t)], rem < price x.2 := by
        intro x hx
        rcases List.mem_append.mp hx with hm | hm
        · exact hdone x hm
        · rcases List.mem_singleton.mp hm with rfl
          simpa using not_le.mp hple
      have hpos2 : ∀ x ∈ (done ++ [(w, t)]) ++ rest, 0 < price x.2 := by
        intro x hx
        apply hpos
        simpa using (by simpa using hx : x ∈ done ++ (w, t) :: rest)
      obtain ⟨n1, hn1⟩ := ih (done ++ [(w, t)]) alloc rem hpos2 hdone2 hrem
      refine ⟨n1, fun fuel hfuel => ?_⟩
      have hlist : done ++ (w, t) :: rest = (done ++ [(w, t)]) ++ rest := by simp
      rw [hlist, hn1 fuel hfuel]
      simp only [allocPass2, if_neg hple]

theorem insertBy_perm (gt : α → α → Bool) (x : α) (l : List α) :
    (insertBy gt x l).Perm (x :: l) := by
  induction l with
  | nil => exact List.Perm.refl _
  | cons y ys ih =>
    by_cases h : gt y x
    · simp only [insertBy, if_pos h]
      exact (ih.cons y).trans (List.Perm.swap x y ys)
    · simp only [insertBy, if_neg h]
      exact List.Perm.refl _

theorem sortBy_perm (gt : α → α → Bool) (l : List α) : (sortBy gt l).Perm l := by
  induction l with
  | nil => exact List.Perm.refl _
  | cons x xs ih =>
    exact (insertBy_perm gt x _).trans (ih.cons x)

theorem sorted_snd_perm (index : List ℕ) (weights : List ℚ)
    (hlen : weights.length = index.length) :
    ((sortBy pairGtb (weights.zip index)).map Prod.snd).Perm index := by
  have h1 := List.Perm.map Prod.snd (sortBy_perm pairGtb (weights.zip index))
  have h2 : (weights.zip index).map Prod.snd = index := by
    apply List.map_snd_zip
    omega
  rw [h2] at h1
  exact h1

end PortfolioSpec

namespace PortfolioSpec

/-- C1.  For every budget B > 0, positive price vector, and weight vector
(over a duplicate-free index aligned with the weights), the allocation
returned by `allocate_portfolio_integer_shares` has only non-negative integer
share counts, spends at most B, returns exactly B minus the total spend as
remaining cash (hence non-negative), and after the final pass every asset
with zero allocated shares has a price strictly greater than the remaining
cash. -/
theorem allocate_integer_shares_budget_invariants (invest : ℚ) (index : List ℕ)
    (prices : ℕ → ℚ) (weights : List ℚ) (hB : 0 < invest)
    (hlen : weights.length = index.length) (hnd : index.Nodup)
    (hpos : ∀ t ∈ index, 0 < prices t) :
    (∀ e ∈ (allocate_portfolio_integer_shares invest index prices weights).1,
      0 ≤ e.2) ∧
    allocSpend prices
        (allocate_portfolio_integer_shares invest index prices weights).1 ≤ invest ∧
    (allocate_portfolio_integer_shares invest index prices weights).2 =
      invest - allocSpend prices
        (allocate_portfolio_integer_shares invest index prices weights).1 ∧
    0 ≤ (allocate_portfolio_integer_shares invest index prices weights).2 ∧
    (∀ t ∈ index,
      dictGet (allocate_portfolio_integer_shares invest index prices weights).1 t = 0 →
      (allocate_portfolio_integer_shares invest index prices weights).2 < prices t) := by
  have hrfl : allocate_portfolio_integer_shares invest index prices weights =
      allocPass2 prices (sortBy pairGtb (weights.zip index))
        (allocPass1 invest prices (sortBy pairGtb (weights.zip index)) [] invest).1
        (allocPass1 invest prices (sortBy pairGtb (weights.zip index)) [] invest).2 := rfl
  rw [hrfl]
  set sa := sortBy pairGtb (weights.zip index) with hsa
  have hperm : (sa.map Prod.snd).Perm index := sorted_snd_perm index weights hlen
  have hsa_pos : ∀ x ∈ sa, 0 < prices x.2 := by
    intro x hx
    exact hpos x.2 (hperm.mem_iff.mp (List.mem_map_of_mem Prod.snd hx))
  have hsa_nd : (sa.map Prod.snd).Nodup := hperm.nodup_iff.mpr hnd
  obtain ⟨h1nd, h1sp, h1nn, h1val⟩ := allocPass1_main prices invest sa [] invest
    (by simp [dictKeys]) (by simp [dictKeys]) hsa_nd
  set s1 := allocPass1 invest prices sa [] invest with hs1
  obtain ⟨h2nd, h2sp, h2nn, h2le, h2val, h2lt⟩ := allocPass2_main prices sa s1.1 s1.2
    hsa_pos h1nd (h1nn hB.le)
  have hspend0 : allocSpend prices ([] : List (ℕ × ℤ)) = 0 := by simp [allocSpend]
  have htotal : allocSpend prices (allocPass2 prices sa s1.1 s1.2).1 +
      (allocPass2 prices sa s1.1 s1.2).2 = invest := by
    rw [h2sp, h1sp, hspend0]
    ring
  have hval : ∀ e ∈ (allocPass2 prices sa s1.1 s1.2).1, 1 ≤ e.2 := by
    apply h2val
    intro e he
    rcases h1val e he with h | h
    · exact absurd h (List.not_mem_nil e)
    · exact h
  refine ⟨fun e he => le_trans (by norm_num) (hval e he), by linarith, by linarith,
    h2nn, ?_⟩
  intro t ht _
  have : t ∈ sa.map Prod.snd := hperm.mem_iff.mpr ht
  obtain ⟨x, hx, hxt⟩ := List.mem_map.mp this
  have := h2lt x hx
  rw [hxt] at this
  exact this

/-- Witness for C1: the budget-10 two-asset tie scenario satisfies all four
hypotheses, and the conclusion holds there by the theorem. -/
theorem allocate_integer_shares_budget_invariants_witness :
    ((0 : ℚ) < 10 ∧ ([1/2, 1/2] : List ℚ).length = ([0, 1] : List ℕ).length ∧
      ([0, 1] : List ℕ).Nodup ∧
      (∀ t ∈ ([0, 1] : List ℕ), 0 < (fun t => if t = 0 then (4 : ℚ) else 6) t)) ∧
    ((∀ e ∈ (allocate_portfolio_integer_shares 10 [0, 1]
        (fun t => if t = 0 then (4 : ℚ) else 6) [1/2, 1/2]).1, 0 ≤ e.2) ∧
    allocSpend (fun t => if t = 0 then (4 : ℚ) else 6)
        (allocate_portfolio_integer_shares 10 [0, 1]
          (fun t => if t = 0 then (4 : ℚ) else 6) [1/2, 1/2]).1 ≤ 10 ∧
    (allocate_portfolio_integer_shares 10 [0, 1]
        (fun t => if t = 0 then (4 : ℚ) else 6) [1/2, 1/2]).2 =
      10 - allocSpend (fun t => if t = 0 then (4 : ℚ) else 6)
        (allocate_portfolio_integer_shares 10 [0, 1]
          (fun t => if t = 0 then (4 : ℚ) else 6) [1/2, 1/2]).1 ∧
    0 ≤ (allocate_portfolio_integer_shares 10 [0, 1]
        (fun t => if t = 0 then (4 : ℚ) else 6) [1/2, 1/2]).2 ∧
    (∀ t ∈ ([0, 1] : List ℕ),
      dictGet (allocate_portfolio_integer_shares 10 [0, 1]
        (fun t => if t = 0 then (4 : ℚ) else 6) [1/2, 1/2]).1 t = 0 →
      (allocate_portfolio_integer_shares 10 [0, 1]
        (fun t => if t = 0 then (4 : ℚ) else 6) [1/2, 1/2]).2 <
        (fun t => if t = 0 then (4 : ℚ) else 6) t)) := by
  have h1 : (0 : ℚ) < 10 := by norm_num
  have h2 : ([1/2, 1/2] : List ℚ).length = ([0, 1] : List ℕ).length := rfl
  have h3 : ([0, 1] : List ℕ).Nodup := by decide
  have h4 : ∀ t ∈ ([0, 1] : List ℕ), 0 < (fun t => if t = 0 then (4 : ℚ) else 6) t := by
    intro t ht
    rcases List.mem_cons.mp ht with rfl | ht2
    · norm_num
    · rcases List.mem_singleton.mp ht2 with rfl
      norm_num
  exact ⟨⟨h1, h2, h3, h4⟩,
    allocate_integer_shares_budget_invariants 10 [0, 1]
      (fun t => if t = 0 then (4 : ℚ) else 6) [1/2, 1/2] h1 h2 h3 h4⟩

/-- C9.  On the spec's end-to-end scenario - budget 10000, prices 3000 and
4000, weights 0.6 and 0.4 - the allocator buys 2 and 1 shares, spending the
whole budget with zero remaining cash. -/
theorem allocate_integer_shares_scenario_budget_10000 :
    allocate_portfolio_integer_shares 10000 [0, 1]
        (fun t => if t = 0 then 3000 else 4000) [3/5, 2/5] =
      ([(0, 2), (1, 1)], 0) ∧
    allocSpend (fun t => if t = 0 then 3000 else 4000) [(0, 2), (1, 1)] = 10000 := by
  constructor
  · norm_num [allocate_portfolio_integer_shares, sortBy, insertBy, pairGtb,
      allocPass1, allocPass2, dictSet, dictMem, dictGet, pyInt]
  · norm_num [allocSpend]

/-- C10.  For every budget, positive price vector, and weight vector, every
asset present in the returned allocation dict has at least one share: the two
guards `shares > 0` and `additional_shares > 0` keep zero-count entries out. -/
theorem allocate_integer_shares_min_one_share (invest : ℚ) (index : List ℕ)
    (prices : ℕ → ℚ) (weights : List ℚ) (hpos : ∀ t ∈ index, 0 < prices t) :
    ∀ e ∈ (allocate_portfolio_integer_shares invest index prices weights).1,
      1 ≤ e.2 := by
  intro e he
  unfold allocate_portfolio_integer_shares at he
  exact allocPass2_values prices _ _ _
    (allocPass1_values invest prices _ [] invest (by simp)) e he

/-- Witness for C10: on the budget-10 scenario the positivity hypothesis
holds and every returned entry has at least one share. -/
theorem allocate_integer_shares_min_one_share_witness :
    (∀ t ∈ ([0, 1] : List ℕ), 0 < (fun t => if t = 0 then (4 : ℚ) else 6) t) ∧
    (∀ e ∈ (allocate_portfolio_integer_shares 10 [0, 1]
        (fun t => if t = 0 then (4 : ℚ) else 6) [1/2, 1/2]).1, 1 ≤ e.2) := by
  have h4 : ∀ t ∈ ([0, 1] : List ℕ), 0 < (fun t => if t = 0 then (4 : ℚ) else 6) t := by
    intro t ht
    rcases List.mem_cons.mp ht with rfl | ht2
    · norm_num
    · rcases List.mem_singleton.mp ht2 with rfl
      norm_num
  exact ⟨h4, allocate_integer_shares_min_one_share 10 [0, 1]
    (fun t => if t = 0 then (4 : ℚ) else 6) [1/2, 1/2] h4⟩

/-- C3, counterexample.  The claim's sort - stable by weight descending with
ties broken by input order - does not match the code: `sorted` compares the
whole `(weight, ticker)` tuples, so equal weights are ordered by ticker
descending.  With budget 10, prices 4 and 6, and equal weights, the code
allocates one share of each asset leaving 0, while the claimed stable order
puts all cash into the first asset leaving 2. -/
theorem allocate_integer_shares_tiebreak_counterexample :
    allocate_portfolio_integer_shares 10 [0, 1]
        (fun t => if t = 0 then 4 else 6) [1/2, 1/2] = ([(0, 1), (1, 1)], 0) ∧
    claimed_stable_order_allocator 10 [0, 1]
        (fun t => if t = 0 then 4 else 6) [1/2, 1/2] = ([(0, 2)], 2) ∧
    allocate_portfolio_integer_shares 10 [0, 1]
        (fun t => if t = 0 then 4 else 6) [1/2, 1/2] ≠
      claimed_stable_order_allocator 10 [0, 1]
        (fun t => if t = 0 then 4 else 6) [1/2, 1/2] := by
  have hcode : allocate_portfolio_integer_shares 10 [0, 1]
      (fun t => if t = 0 then 4 else 6) [1/2, 1/2] = ([(0, 1), (1, 1)], 0) := by
    norm_num [allocate_portfolio_integer_shares, sortBy, insertBy, pairGtb,
      allocPass1, allocPass2, dictSet, dictMem, dictGet, pyInt]
  have hclaim : claimed_stable_order_allocator 10 [0, 1]
      (fun t => if t = 0 then 4 else 6) [1/2, 1/2] = ([(0, 2)], 2) := by
    norm_num [claimed_stable_order_allocator, sortBy, insertBy, weightGtb,
      allocPass1, allocPass2, dictSet, dictMem, dictGet, pyInt]
  refine ⟨hcode, hclaim, ?_⟩
  rw [hcode, hclaim]
  intro h
  have := congrArg Prod.snd h
  norm_num at this

/-- C3, as amended.  The allocator sorts the zipped `(weight, ticker)` pairs
descending - ties in weight broken by ticker descending - and its second
pass is extensionally the claimed loop: repeatedly scan the sorted assets and
add exactly one share to the first asset whose price fits, until no asset's
price fits.  For every positive budget over positive prices there is a fuel
bound past which the one-share-at-a-time loop reproduces the code's result
exactly. -/
theorem allocate_integer_shares_one_share_second_pass (invest : ℚ)
    (index : List ℕ) (prices : ℕ → ℚ) (weights : List ℚ) (hB : 0 < invest)
    (hlen : weights.length = index.length) (hnd : index.Nodup)
    (hpos : ∀ t ∈ index, 0 < prices t) :
    ∃ n : ℕ, ∀ fuel, n ≤ fuel →
      allocate_portfolio_integer_shares invest index prices weights =
        oneSharePass prices (sortBy pairGtb (weights.zip index)) fuel
          (allocPass1 invest prices (sortBy pairGtb (weights.zip index)) [] invest).1
          (allocPass1 invest prices (sortBy pairGtb (weights.zip index)) [] invest).2 := by
  set sa := sortBy pairGtb (weights.zip index) with hsa
  have hperm : (sa.map Prod.snd).Perm index := sorted_snd_perm index weights hlen
  have hsa_pos : ∀ x ∈ sa, 0 < prices x.2 := by
    intro x hx
    exact hpos x.2 (hperm.mem_iff.mp (List.mem_map_of_mem Prod.snd hx))
  have hsa_nd : (sa.map Prod.snd).Nodup := hperm.nodup_iff.mpr hnd
  obtain ⟨h1nd, h1sp, h1nn, h1val⟩ := allocPass1_main prices invest sa [] invest
    (by simp [dictKeys]) (by simp [dictKeys]) hsa_nd
  set s1 := allocPass1 invest prices sa [] invest with hs1
  obtain ⟨n, hn⟩ := oneSharePass_eq_allocPass2 prices sa [] s1.1 s1.2
    (by simpa using hsa_pos) (by simp) (h1nn hB.le)
  refine ⟨n, fun fuel hf => ?_⟩
  have := hn fuel hf
  rw [List.nil_append] at this
  rw [this]
  rfl

/-- Witness for C3: the amended second-pass equivalence at the budget-10
scenario, with all four hypotheses discharged. -/
theorem allocate_integer_shares_one_share_second_pass_witness :
    ((0 : ℚ) < 10 ∧ ([1/2, 1/2] : List ℚ).length = ([0, 1] : List ℕ).length ∧
      ([0, 1] : List ℕ).Nodup ∧
      (∀ t ∈ ([0, 1] : List ℕ), 0 < (fun t => if t = 0 then (4 : ℚ) else 6) t)) ∧
    (∃ n : ℕ, ∀ fuel, n ≤ fuel →
      allocate_portfolio_integer_shares 10 [0, 1]
          (fun t => if t = 0 then (4 : ℚ) else 6) [1/2, 1/2] =
        oneSharePass (fun t => if t = 0 then (4 : ℚ) else 6)
          (sortBy pairGtb (([1/2, 1/2] : List ℚ).zip [0, 1])) fuel
          (allocPass1 10 (fun t => if t = 0 then (4 : ℚ) else 6)
            (sortBy pairGtb (([1/2, 1/2] : List ℚ).zip [0, 1])) [] 10).1
          (allocPass1 10 (fun t => if t = 0 then (4 : ℚ) else 6)
            (sortBy pairGtb (([1/2, 1/2] : List ℚ).zip [0, 1])) [] 10).2) := by
  have h1 : (0 : ℚ) < 10 := by norm_num
  have h2 : ([1/2, 1/2] : List ℚ).length = ([0, 1] : List ℕ).length := rfl
  have h3 : ([0, 1] : List ℕ).Nodup := by decide
  have h4 : ∀ t ∈ ([0, 1] : List ℕ), 0 < (fun t => if t = 0 then (4 : ℚ) else 6) t := by
    intro t ht
    rcases List.mem_cons.mp ht with rfl | ht2
    · norm_num
    · rcases List.mem_singleton.mp ht2 with rfl
      norm_num
  exact ⟨⟨h1, h2, h3, h4⟩,
    allocate_integer_shares_one_share_second_pass 10 [0, 1]
      (fun t => if t = 0 then (4 : ℚ) else 6) [1/2, 1/2] h1 h2 h3 h4⟩

end PortfolioSpec

namespace PortfolioSpec

theorem list_sum_map_div (l : List ℚ) (c : ℚ) :
    (l.map (fun x => x / c)).sum = l.sum / c := by
  induction l with
  | nil => simp
  | cons x xs ih => simp [ih, add_div]

/-- C2.  Whenever the scaled weights have non-zero sum, the anomaly
post-processing step returns exactly the vector of weights scaled by one
minus the anomaly score, renormalized by their sum, and the returned vector
sums to exactly 1. -/
theorem adjust_weights_for_anomalies_renormalized (weights anomaly_scores : List ℚ)
    (hS : ((weights.zip anomaly_scores).map (fun p => p.1 * (1 - p.2))).sum ≠ 0) :
    adjust_weights_for_anomalies weights anomaly_scores =
      (weights.zip anomaly_scores).map (fun p =>
        p.1 * (1 - p.2) /
          ((weights.zip anomaly_scores).map (fun q => q.1 * (1 - q.2))).sum) ∧
    (adjust_weights_for_anomalies weights anomaly_scores).sum = 1 := by
  constructor
  · simp [adjust_weights_for_anomalies, List.map_map, Function.comp]
  · simp only [adjust_weights_for_anomalies]
    rw [list_sum_map_div, div_self hS]

/-- Witness for C2: weights one half each with anomaly scores 0 and one half;
the scaled sum is three quarters and the returned vector sums to 1. -/
theorem adjust_weights_for_anomalies_renormalized_witness :
    ((([1/2, 1/2] : List ℚ).zip ([0, 1/2] : List ℚ)).map
        (fun p => p.1 * (1 - p.2))).sum ≠ 0 ∧
    (adjust_weights_for_anomalies [1/2, 1/2] [0, 1/2] =
      (([1/2, 1/2] : List ℚ).zip ([0, 1/2] : List ℚ)).map (fun p =>
        p.1 * (1 - p.2) /
          ((([1/2, 1/2] : List ℚ).zip ([0, 1/2] : List ℚ)).map
            (fun q => q.1 * (1 - q.2))).sum) ∧
      (adjust_weights_for_anomalies [1/2, 1/2] [0, 1/2]).sum = 1) := by
  have hS : ((([1/2, 1/2] : List ℚ).zip ([0, 1/2] : List ℚ)).map
      (fun p => p.1 * (1 - p.2))).sum ≠ 0 := by
    norm_num [List.zip]
  exact ⟨hS, adjust_weights_for_anomalies_renormalized [1/2, 1/2] [0, 1/2] hS⟩

/-- C4, counterexample.  `calculate_adjusted_score` has no clamp: at a row
with anomaly fractions summing to 41 (and positive quality-adjusted base
score) the adjusted score is negative, refuting "the adjusted score never
becomes negative when the anomaly sum exceeds 20". -/
theorem calculate_adjusted_score_negative_counterexample :
    20 < c4Row.price_anomaly + c4Row.rsi_anomaly ∧
    calculate_adjusted_score c4Row equal_weights7 < 0 := by
  have hbase : base_score equal_weights7 c4Row = 2 / 7 := by
    simp [base_score, equal_weights7, c4Row, Real.log_one]
    norm_num
  constructor
  · norm_num [c4Row]
  · unfold calculate_adjusted_score
    rw [hbase]
    norm_num [c4Row]

/-- C4, as amended.  The adjusted score equals the composite score times
`1 + 0.1 * avg(ROE, ROIC)` times `1 - 0.05 * (price_anomaly + rsi_anomaly)`
with no clamp at all: when the anomaly sum exceeds 20 and the
quality-adjusted base is positive, the adjusted score is negative. -/
theorem calculate_adjusted_score_unclamped_formula (row : AssetRow)
    (w : Fin 7 → ℝ)
    (hbase : 0 < base_score w row * (1 + 0.1 * ((row.roe + row.roic) / 2)))
    (hpen : 20 < row.price_anomaly + row.rsi_anomaly) :
    calculate_adjusted_score row w =
      base_score w row * (1 + 0.1 * ((row.roe + row.roic) / 2)) *
        (1 - 0.05 * (row.price_anomaly + row.rsi_anomaly)) ∧
    calculate_adjusted_score row w < 0 := by
  have hform : calculate_adjusted_score row w =
      base_score w row * (1 + 0.1 * ((row.roe + row.roic) / 2)) *
        (1 - 0.05 * (row.price_anomaly + row.rsi_anomaly)) := by
    unfold calculate_adjusted_score
    ring
  refine ⟨hform, ?_⟩
  rw [hform]
  have hneg : 1 - 0.05 * (row.price_anomaly + row.rsi_anomaly) < 0 := by linarith
  exact mul_neg_of_pos_of_neg hbase hneg

/-- Witness for C4: the unit-fundamentals row with anomaly sum 41 satisfies
both hypotheses, and the formula and negativity hold there. -/
theorem calculate_adjusted_score_unclamped_formula_witness :
    (0 < base_score equal_weights7 c4Row *
        (1 + 0.1 * ((c4Row.roe + c4Row.roic) / 2)) ∧
      20 < c4Row.price_anomaly + c4Row.rsi_anomaly) ∧
    (calculate_adjusted_score c4Row equal_weights7 =
      base_score equal_weights7 c4Row *
        (1 + 0.1 * ((c4Row.roe + c4Row.roic) / 2)) *
        (1 - 0.05 * (c4Row.price_anomaly + c4Row.rsi_anomaly)) ∧
    calculate_adjusted_score c4Row equal_weights7 < 0) := by
  have hb : base_score equal_weights7 c4Row = 2 / 7 := by
    simp [base_score, equal_weights7, c4Row, Real.log_one]
    norm_num
  have h1 : 0 < base_score equal_weights7 c4Row *
      (1 + 0.1 * ((c4Row.roe + c4Row.roic) / 2)) := by
    rw [hb]
    norm_num [c4Row]
  have h2 : 20 < c4Row.price_anomaly + c4Row.rsi_anomaly := by
    norm_num [c4Row]
  exact ⟨⟨h1, h2⟩,
    calculate_adjusted_score_unclamped_formula c4Row equal_weights7 h1 h2⟩

/-- C5, counterexample.  With a single return row the code does not raise any
InsufficientDataError - no such error exists in the source - it returns the
annualized return together with a NaN volatility (the sample covariance of
one row is NaN, modelled as `none`). -/
theorem portfolio_performance_single_row_counterexample :
    portfolio_performance 1 1 (fun _ => 1) (fun _ _ => (1 : ℝ) / 10) =
      (126 / 5, none) := by
  unfold portfolio_performance
  rw [if_pos (by omega)]
  simp only [Prod.mk.injEq]
  refine ⟨?_, trivial⟩
  simp [colMean]
  norm_num

/-- C5, as amended.  For every weight vector and returns panel with at least
2 rows, `portfolio_performance` returns the pair claimed:
`(sum of weight times mean periodic return) * 252` and the square root of the
quadratic form of the weights over the annualized sample covariance; with
fewer than 2 rows it returns a NaN volatility instead of raising. -/
theorem portfolio_performance_formula (T n : ℕ) (weights : Fin n → ℝ)
    (R : Fin T → Fin n → ℝ) (hT : 2 ≤ T) :
    portfolio_performance T n weights R =
      ((∑ j, weights j * colMean T n R j) * 252,
       some (Real.sqrt (∑ j, ∑ k,
          weights j * (sampleCov T n R j k * 252) * weights k))) := by
  unfold portfolio_performance
  rw [if_neg (by omega)]
  simp only [Prod.mk.injEq]
  constructor
  · congr 1
    exact Finset.sum_congr rfl (fun j _ => mul_comm _ _)
  · congr 2
    refine Finset.sum_congr rfl (fun j _ => ?_)
    rw [Finset.mul_sum]
    exact Finset.sum_congr rfl (fun k _ => by ring)

/-- Witness for C5: a concrete 2-by-1 panel satisfies the row-count
hypothesis and the formula holds there by the theorem. -/
theorem portfolio_performance_formula_witness :
    2 ≤ 2 ∧
    portfolio_performance 2 1 (fun _ => 1) (fun t _ => if t = 0 then (1 : ℝ) else 2) =
      ((∑ j, (fun _ : Fin 1 => (1 : ℝ)) j *
          colMean 2 1 (fun t _ => if t = 0 then (1 : ℝ) else 2) j) * 252,
       some (Real.sqrt (∑ j, ∑ k,
          (fun _ : Fin 1 => (1 : ℝ)) j *
            (sampleCov 2 1 (fun t _ => if t = 0 then (1 : ℝ) else 2) j k * 252) *
            (fun _ : Fin 1 => (1 : ℝ)) k))) :=
  ⟨by norm_num,
   portfolio_performance_formula 2 1 (fun _ => 1)
     (fun t _ => if t = 0 then (1 : ℝ) else 2) (by norm_num)⟩

theorem sampleVarList_of_const (y : List ℝ) (c : ℝ) (h : ∀ v ∈ y, v = c) :
    sampleVarList y = 0 := by
  rcases List.eq_nil_or_concat y with rfl | _
  · simp [sampleVarList]
  · have hlen : y.length ≠ 0 := by
      rcases y with _ | ⟨a, l⟩
      · simp_all
      · simp
    have hmean : listMean y = c := by
      unfold listMean
      rw [List.sum_eq_card_nsmul y c h]
      field_simp
    unfold sampleVarList
    rw [List.sum_eq_zero]
    · simp
    · intro x hx
      obtain ⟨v, hv, hvx⟩ := List.mem_map.mp hx
      rw [← hvx, hmean, h v hv]
      ring

/-- C7, counterexample.  On a one-asset candidate table the Pearson
correlation of the objective is undefined (NaN, modelled `none`), yet
`optimize_weights` still returns a weight vector - the solver's output, here
the equal initial weights - rather than failing with a CalibrationError: no
such error and no fallback exist in the source. -/
theorem optimize_weights_undefined_correlation_counterexample :
    calibrationObjective c7Df initial_weights = none ∧
    optimize_weights c7Solver c7Df = initial_weights := by
  constructor
  · unfold calibrationObjective corrcoef
    rw [if_pos]
    · rfl
    · left
      simp [calculate_score, c7Df]
  · rfl

/-- C7, as amended.  `optimize_weights` performs no degenerate-case check:
when the candidate set has fewer than 2 rows, or the cumulative-return column
is constant, the negated-correlation objective is everywhere undefined (NaN),
and the function still returns the external solver's weight vector, started
from the equal weights 1/7 - it never raises and the caller applies the
result without fallback. -/
theorem optimize_weights_degenerate_returns_vector (df : CandidateTable) (c : ℝ)
    (solver : ((Fin 7 → ℝ) → Option ℝ) → (Fin 7 → ℝ) → (Fin 7 → ℝ))
    (hdeg : df.rows.length < 2 ∨ ∀ r ∈ df.cumulative_returns, r = c) :
    (∀ w, calibrationObjective df w = none) ∧
    optimize_weights solver df = solver (calibrationObjective df) initial_weights := by
  refine ⟨fun w => ?_, rfl⟩
  unfold calibrationObjective corrcoef
  rcases hdeg with hlen | hconst
  · rw [if_pos]
    · rfl
    · left
      simpa [calculate_score] using hlen
  · rw [if_pos]
    · rfl
    · right; right
      exact sampleVarList_of_const _ c hconst

/-- Witness for C7: the one-asset table is degenerate, the objective is
everywhere undefined there, and the returned vector is the solver's. -/
theorem optimize_weights_degenerate_returns_vector_witness :
    (c7Df.rows.length < 2 ∨ ∀ r ∈ c7Df.cumulative_returns, r = (1 : ℝ)) ∧
    ((∀ w, calibrationObjective c7Df w = none) ∧
      optimize_weights c7Solver c7Df =
        c7Solver (calibrationObjective c7Df) initial_weights) := by
  have hdeg : c7Df.rows.length < 2 ∨ ∀ r ∈ c7Df.cumulative_returns, r = (1 : ℝ) :=
    Or.inl (by simp [c7Df])
  exact ⟨hdeg, optimize_weights_degenerate_returns_vector c7Df 1 c7Solver hdeg⟩

end PortfolioSpec

namespace PortfolioSpec

theorem ffillAux_of_all_some (col : List (Option ℚ)) (h : ∀ x ∈ col, x.isSome) :
    ∀ last, ffillAux last col = col := by
  induction col with
  | nil => intro last; rfl
  | cons c cs ih =>
    intro last
    cases c with
    | none =>
      exfalso
      have := h none (List.mem_cons_self _ _)
      simp at this
    | some v =>
      simp only [ffillAux]
      rw [ih (fun x hx => h x (List.mem_cons_of_mem _ hx))]

theorem pctChangeCol_of_all_some (col : List (Option ℚ))
    (h : ∀ x ∈ col, x.isSome) : pctChangeCol col = rawPctCol col := by
  unfold pctChangeCol rawPctCol ffill
  rw [ffillAux_of_all_some col h none]

/-- C8, counterexample.  On a panel with one interior missing price the code
does not drop the affected rows: pandas `pct_change` forward-fills by
default, so the missing date yields a 0 return and the next date a return
computed against the padded price, while the claimed consecutive-relative-
change reading would have dropped both rows and returned an empty panel. -/
theorem calculate_returns_padding_counterexample :
    calculate_returns [[some 1, none, some 2]] = [[0], [1]] ∧
    claimed_calculate_returns [[some 1, none, some 2]] = [] ∧
    calculate_returns [[some 1, none, some 2]] ≠
      claimed_calculate_returns [[some 1, none, some 2]] := by
  have hcode : calculate_returns [[some 1, none, some 2]] = [[0], [1]] := by
    norm_num [calculate_returns, dropIncompleteRows, pctChangeCol, ffill,
      ffillAux, rowAt, pctCell, List.range_succ, List.filterMap_cons]
  have hclaim : claimed_calculate_returns [[some 1, none, some 2]] = [] := by
    norm_num [claimed_calculate_returns, dropIncompleteRows, rawPctCol,
      rowAt, pctCell, List.range_succ, List.filterMap_cons]
  refine ⟨hcode, hclaim, ?_⟩
  rw [hcode, hclaim]
  simp

/-- C8, as amended.  `calculate_returns` keeps the panel rectangular - every
returned row has one entry per asset - returns an empty panel on empty
input, and coincides with the claimed consecutive-relative-change-and-drop
computation exactly on panels with no missing cell; with missing cells the
prices are forward-filled first (the pandas `pct_change` default), so
interior gaps produce padded returns instead of dropped rows. -/
theorem calculate_returns_shape_and_empty (prices : List (List (Option ℚ))) :
    (∀ row ∈ calculate_returns prices, row.length = prices.length) ∧
    calculate_returns [] = [] ∧
    ((∀ c ∈ prices, ∀ x ∈ c, x.isSome) →
      calculate_returns prices = claimed_calculate_returns prices) := by
  refine ⟨?_, rfl, ?_⟩
  · intro row hrow
    unfold calculate_returns at hrow
    by_cases hempty : prices.isEmpty ∨ (prices.getD 0 []).length = 0
    · rw [if_pos hempty] at hrow
      exact absurd hrow (List.not_mem_nil row)
    · rw [if_neg hempty] at hrow
      unfold dropIncompleteRows at hrow
      obtain ⟨t, _, ht⟩ := List.mem_filterMap.mp hrow
      by_cases hall : (rowAt (prices.map pctChangeCol) t).all Option.isSome
      · rw [if_pos hall] at ht
        have := Option.some.inj ht
        rw [← this]
        simp [rowAt]
      · rw [if_neg hall] at ht
        exact absurd ht (Option.noConfusion)
  · intro hsome
    unfold calculate_returns claimed_calculate_returns
    by_cases hempty : prices.isEmpty ∨ (prices.getD 0 []).length = 0
    · rw [if_pos hempty, if_pos hempty]
    · rw [if_neg hempty, if_neg hempty]
      congr 1
      apply List.map_congr_left
      intro c hc
      exact pctChangeCol_of_all_some c (hsome c hc)

theorem winVar_nonneg (w : ℕ) (win : List ℚ) (hw : 2 ≤ w) : 0 ≤ winVar w win := by
  unfold winVar
  apply div_nonneg
  · apply List.sum_nonneg
    intro x hx
    obtain ⟨v, _, hvx⟩ := List.mem_map.mp hx
    rw [← hvx]
    positivity
  · have : (2 : ℚ) ≤ (w : ℚ) := by exact_mod_cast hw
    linarith

theorem sq_gt_iff_abs_div_sqrt (x v θ : ℚ) (hv0 : 0 < v) (hθ : 0 < θ) :
    x ^ 2 > θ ^ 2 * v ↔
      |((x : ℚ) : ℝ)| / Real.sqrt ((v : ℚ) : ℝ) > ((θ : ℚ) : ℝ) := by
  have hvR : (0 : ℝ) < ((v : ℚ) : ℝ) := by exact_mod_cast hv0
  have hs : 0 < Real.sqrt ((v : ℚ) : ℝ) := Real.sqrt_pos.mpr hvR
  have hs2 : Real.sqrt ((v : ℚ) : ℝ) ^ 2 = ((v : ℚ) : ℝ) := Real.sq_sqrt hvR.le
  have hθR : (0 : ℝ) < ((θ : ℚ) : ℝ) := by exact_mod_cast hθ
  constructor
  · intro h
    have hR : ((θ : ℚ) : ℝ) ^ 2 * ((v : ℚ) : ℝ) < ((x : ℚ) : ℝ) ^ 2 := by
      exact_mod_cast h
    rw [gt_iff_lt, lt_div_iff hs]
    nlinarith [abs_nonneg ((x : ℚ) : ℝ), sq_abs ((x : ℚ) : ℝ), hs2,
      mul_nonneg hθR.le hs.le]
  · intro h
    rw [gt_iff_lt, lt_div_iff hs] at h
    have hR : ((θ : ℚ) : ℝ) ^ 2 * ((v : ℚ) : ℝ) < ((x : ℚ) : ℝ) ^ 2 := by
      nlinarith [abs_nonneg ((x : ℚ) : ℝ), sq_abs ((x : ℚ) : ℝ), hs2,
        mul_nonneg hθR.le hs.le]
    exact_mod_cast hR

theorem flagAt_of_none (window : ℕ) (threshold : ℚ) (residuals : List ℚ) (i : ℕ)
    (h : rollingWindowVals window residuals i = none) :
    flagAt window threshold residuals i = false := by
  unfold flagAt
  rw [h]

theorem flagAt_of_some (window : ℕ) (threshold : ℚ) (residuals : List ℚ) (i : ℕ)
    (win : List ℚ) (h : rollingWindowVals window residuals i = some win) :
    flagAt window threshold residuals i =
      if winVar window win = 0 then false
      else decide ((residuals.getD i 0 - winMean window win) ^ 2 >
        threshold ^ 2 * winVar window win) := by
  unfold flagAt
  rw [h]

/-- C6, counterexample.  `detect_price_anomalies` has no short-series guard:
when the residual-model fit raises - as the ARIMA library does on a series
too short to fit, here a one-point price series whose return series is empty
- the error propagates out of the function instead of a 0 flagged fraction
being returned. -/
theorem detect_price_anomalies_short_series_counterexample :
    detect_price_anomalies c6Fit [some 1] 20 2 =
      .error "insufficient observations" ∧
    (detect_price_anomalies c6Fit [some 1] 20 2).toOption = none := by
  have h1 : detect_price_anomalies c6Fit [some 1] 20 2 =
      .error "insufficient observations" := by
    norm_num [detect_price_anomalies, c6Fit, seriesReturns, dropNoneQ,
      pctChangeCol, ffill, ffillAux, List.range_succ]
  exact ⟨h1, by rw [h1]; rfl⟩

/-- C6, as amended.  A fit failure propagates: the detector fails with the
library's error rather than returning a 0 flagged fraction.  When the fit
succeeds, it returns one flag per residual, set exactly at the indices with a
full rolling window, a nonzero rolling variance, and a standardized residual
exceeding the threshold in absolute value. -/
theorem detect_price_anomalies_propagation_and_flags
    (fit : List ℚ → Except String (List ℚ)) (prices : List (Option ℚ))
    (window : ℕ) (threshold : ℚ) (hw : 2 ≤ window) (hθ : 0 < threshold) :
    (∀ e, fit (seriesReturns prices) = .error e →
      detect_price_anomalies fit prices window threshold = .error e) ∧
    (∀ residuals, fit (seriesReturns prices) = .ok residuals →
      detect_price_anomalies fit prices window threshold =
        .ok ((List.range residuals.length).map (flagAt window threshold residuals)) ∧
      ∀ i, flagAt window threshold residuals i = true ↔
        claimedZFlag window threshold residuals i) := by
  refine ⟨fun e he => ?_, fun residuals hres => ⟨?_, fun i => ?_⟩⟩
  · unfold detect_price_anomalies
    rw [he]
  · unfold detect_price_anomalies
    rw [hres]
  · cases hrw : rollingWindowVals window residuals i with
    | none =>
      rw [flagAt_of_none window threshold residuals i hrw]
      constructor
      · intro h
        exact absurd h (by simp)
      · rintro ⟨win, hwin, -, -⟩
        rw [hrw] at hwin
        exact absurd hwin (by simp)
    | some win =>
      rw [flagAt_of_some window threshold residuals i win hrw]
      by_cases hv : winVar window win = 0
      · rw [if_pos hv]
        constructor
        · intro h
          exact absurd h (by simp)
        · rintro ⟨win2, hwin2, hv2, -⟩
          rw [hrw] at hwin2
          rw [Option.some.inj hwin2] at hv
          exact absurd hv hv2
      · rw [if_neg hv]
        have hv0 : 0 < winVar window win :=
          lt_of_le_of_ne (winVar_nonneg window win hw) (Ne.symm hv)
        constructor
        · intro h
          refine ⟨win, hrw, hv, ?_⟩
          have h2 := (sq_gt_iff_abs_div_sqrt _ _ _ hv0 hθ).mp (of_decide_eq_true h)
          rw [Rat.cast_sub] at h2
          exact h2
        · rintro ⟨win2, hwin2, -, habs⟩
          rw [hrw] at hwin2
          rw [← Option.some.inj hwin2] at habs
          rw [← Rat.cast_sub] at habs
          exact decide_eq_true ((sq_gt_iff_abs_div_sqrt _ _ _ hv0 hθ).mpr habs)

/-- Witness for C6: with the always-succeeding fit boundary on a two-point
price series, both hypotheses hold and the theorem's conclusion holds
there. -/
theorem detect_price_anomalies_propagation_and_flags_witness :
    ((2 : ℕ) ≤ 20 ∧ (0 : ℚ) < 2) ∧
    ((∀ e, c6FitOk (seriesReturns [some 1, some 2]) = .error e →
      detect_price_anomalies c6FitOk [some 1, some 2] 20 2 = .error e) ∧
    (∀ residuals, c6FitOk (seriesReturns [some 1, some 2]) = .ok residuals →
      detect_price_anomalies c6FitOk [some 1, some 2] 20 2 =
        .ok ((List.range residuals.length).map (flagAt 20 2 residuals)) ∧
      ∀ i, flagAt 20 2 residuals i = true ↔ claimedZFlag 20 2 residuals i)) := by
  refine ⟨⟨by norm_num, by norm_num⟩, ?_⟩
  exact detect_price_anomalies_propagation_and_flags c6FitOk [some 1, some 2]
    20 2 (by norm_num) (by norm_num)

end PortfolioSpec
